import Mathlib

/-!
Verification of the ZenReader reading surface
(`src/components/reader/PagedReader.tsx`, `src/components/reader/ReadingFooter.tsx`,
`src/components/Reader.tsx` and the book store it embeds).

The development is a shallow embedding: each relevant TypeScript function is
translated into an executable Lean definition, and the properties of the
specification are proved (or refuted) about those definitions.

JavaScript numbers are modelled by `JSNum`: an exact rational for finite
values plus the IEEE special values `posInf`, `negInf`, `nan`.  Every finite
value appearing in a theorem below is exactly representable as a binary
double and every arithmetic step on it is exact, so the rational model agrees
with IEEE evaluation at those points.  (Signed zero is not modelled; no
statement below depends on it.)
-/

namespace ZenReader

/-- Model of a JavaScript number: an exact rational, or one of the IEEE
special values. -/
inductive JSNum where
  | num : ℚ → JSNum
  | posInf : JSNum
  | negInf : JSNum
  | nan : JSNum
deriving DecidableEq, Repr

namespace JSNum

/-- JavaScript division, including the IEEE zero-division rules
(`x/0 = ±Infinity` for `x ≠ 0`, `0/0 = NaN`). -/
def div : JSNum → JSNum → JSNum
  | nan, _ => nan
  | _, nan => nan
  | num a, num b =>
      if b = 0 then (if a = 0 then nan else if 0 < a then posInf else negInf)
      else num (a / b)
  | num _, posInf => num 0
  | num _, negInf => num 0
  | posInf, num b => if b < 0 then negInf else posInf
  | negInf, num b => if b < 0 then posInf else negInf
  | posInf, posInf => nan
  | posInf, negInf => nan
  | negInf, posInf => nan
  | negInf, negInf => nan

/-- JavaScript multiplication (`0 × ±Infinity = NaN`). -/
def mul : JSNum → JSNum → JSNum
  | nan, _ => nan
  | _, nan => nan
  | num a, num b => num (a * b)
  | num a, posInf => if a = 0 then nan else if 0 < a then posInf else negInf
  | num a, negInf => if a = 0 then nan else if 0 < a then negInf else posInf
  | posInf, num b => if b = 0 then nan else if 0 < b then posInf else negInf
  | negInf, num b => if b = 0 then nan else if 0 < b then negInf else posInf
  | posInf, posInf => posInf
  | posInf, negInf => negInf
  | negInf, posInf => negInf
  | negInf, negInf => posInf

/-- JavaScript subtraction. -/
def sub : JSNum → JSNum → JSNum
  | nan, _ => nan
  | _, nan => nan
  | num a, num b => num (a - b)
  | num _, posInf => negInf
  | num _, negInf => posInf
  | posInf, num _ => posInf
  | negInf, num _ => negInf
  | posInf, posInf => nan
  | posInf, negInf => posInf
  | negInf, posInf => negInf
  | negInf, negInf => nan

/-- `Math.ceil` (`Rat.ceil` is the computable ceiling; the lemma
`ratCeil_eq` below identifies it with the mathematical `Int.ceil`). -/
def ceil : JSNum → JSNum
  | num q => num (q.ceil : ℤ)
  | posInf => posInf
  | negInf => negInf
  | nan => nan

/-- `Math.floor`. -/
def floor : JSNum → JSNum
  | num q => num (q.floor : ℤ)
  | posInf => posInf
  | negInf => negInf
  | nan => nan

/-- `Math.max` of two numbers: `NaN` if either argument is `NaN`. -/
def max2 : JSNum → JSNum → JSNum
  | nan, _ => nan
  | _, nan => nan
  | num a, num b => num (max a b)
  | posInf, _ => posInf
  | _, posInf => posInf
  | negInf, b => b
  | a, negInf => a

/-- The JavaScript comparison `x <= y` (false whenever an operand is `NaN`). -/
def le : JSNum → JSNum → Bool
  | nan, _ => false
  | _, nan => false
  | num a, num b => decide (a ≤ b)
  | num _, posInf => true
  | num _, negInf => false
  | posInf, posInf => true
  | posInf, _ => false
  | negInf, _ => true

/-- The JavaScript comparison `x < y` (false whenever an operand is `NaN`). -/
def lt : JSNum → JSNum → Bool
  | nan, _ => false
  | _, nan => false
  | num a, num b => decide (a < b)
  | num _, posInf => true
  | num _, negInf => false
  | posInf, _ => false
  | negInf, negInf => false
  | negInf, _ => true

/-- Strict equality `x === y` (`NaN === NaN` is false). -/
def seq : JSNum → JSNum → Bool
  | num a, num b => decide (a = b)
  | posInf, posInf => true
  | negInf, negInf => true
  | _, _ => false

/-- Truncation toward zero, used by the JavaScript `%` operator. -/
def ratTrunc (q : ℚ) : ℤ := if 0 ≤ q then q.floor else q.ceil

/-- The JavaScript remainder `x % y` (sign of the dividend; `NaN` on special
operands or a zero divisor). -/
def mod : JSNum → JSNum → JSNum
  | num a, num b => if b = 0 then nan else num (a - b * (ratTrunc (a / b) : ℚ))
  | _, _ => nan

/-- Template-literal rendering of a number.  Integers print as their decimal
digits and the special values print as in JavaScript.  Non-integral finite
values are rendered as the raw rational (the statements below only ever
format integers and `NaN`, where this agrees with JavaScript). -/
def toStr : JSNum → String
  | num q => if q.den = 1 then toString q.num else toString q
  | posInf => "Infinity"
  | negInf => "-Infinity"
  | nan => "NaN"

end JSNum

/-! ## Pagination Engine (`PagedReader.tsx`)

`calculatePages` (lines 70–102) reads `contentRef.current.scrollWidth` and
`layoutDims.width` and computes
`Math.max(1, Math.ceil(scrollWidth / layoutDims.width))`. -/

/-- The page-count expression of `calculatePages`
(`PagedReader.tsx` line 86). -/
def calcPagesValue (scrollWidth width : JSNum) : JSNum :=
  JSNum.max2 (.num 1) (JSNum.ceil (JSNum.div scrollWidth width))

/-- The guard of the page-calculation effect (`PagedReader.tsx` line 66):
`if (!layoutDims || !contentRef.current) return;`.  `layoutDims` is an
object or `null`, so the only thing checked is presence — a measured width
of `0` is a truthy object and does not stop the computation. -/
def pagesEffectComputes (layoutDims : Option (JSNum × JSNum)) : Bool :=
  layoutDims.isSome

/-- Natural-number form of the page count for a positive integral viewport
width: `max 1 ⌈S/W⌉ = max 1 ((S + W - 1) / W)`. -/
def calcPagesNat (scrollWidth width : ℕ) : ℕ :=
  max 1 ((scrollWidth + width - 1) / width)

/-- One event sent to the external observers by `calculatePages`:
`onTotalPagesChange(pages)` or `onPageChange(pageIndex)`. -/
inductive PageEvent where
  | totalPages (n : ℕ)
  | pageChange (i : ℕ)
deriving DecidableEq, Repr

/-- The closure context captured when the page-calculation effect runs
(`PagedReader.tsx` lines 65–113).  Because the dependency list of the effect
(line 113) deliberately omits `currentPageIndex`, the scheduled 100 ms and
500 ms re-runs of `calculatePages` observe the page index captured at effect
set-up, even if `onPageChange` has meanwhile moved it. -/
structure EffectCtx where
  currentPageIndex : ℕ
  scrollWidth : ℕ
  width : ℕ
deriving Repr

/-- One execution of `calculatePages` (lines 70–102): recompute the page
count, notify `onTotalPagesChange` when it changed, and notify
`onPageChange(pages - 1)` when the captured `currentPageIndex` is out of
range.  Returns the new `totalPages` state and the emitted events. -/
def calcPass (ctx : EffectCtx) (prevTotal : ℕ) : ℕ × List PageEvent :=
  let pages := calcPagesNat ctx.scrollWidth ctx.width
  let ev1 := if prevTotal ≠ pages then [PageEvent.totalPages pages] else []
  let ev2 := if pages ≤ ctx.currentPageIndex then [PageEvent.pageChange (pages - 1)] else []
  (pages, ev1 ++ ev2)

/-- The effect's schedule: `calculatePages` runs immediately and again after
100 ms and 500 ms (lines 105–107), all three invocations sharing the same
closure `ctx`. -/
def runPasses (ctx : EffectCtx) (prevTotal : ℕ) : ℕ → ℕ × List PageEvent
  | 0 => (prevTotal, [])
  | n + 1 =>
      let r1 := calcPass ctx prevTotal
      let r2 := runPasses ctx r1.1 n
      (r2.1, r1.2 ++ r2.2)

/-- Recognizer for clamp notifications. -/
def isPageChange : PageEvent → Bool
  | .pageChange _ => true
  | _ => false

/-! ## Navigation Controller (`PagedReader.tsx` lines 143–157) -/

/-- Outcome of an advance/retreat intent. -/
inductive NavResult where
  | page (i : ℕ)
  | chapter
  | noop
deriving DecidableEq, Repr

/-- `goToNextPage` (lines 151–157): intra-chapter increment when possible,
else the next-chapter collaborator when provided, else nothing. -/
def goToNextPage (currentPageIndex totalPages : ℕ) (hasNextChapter : Bool) : NavResult :=
  if currentPageIndex < totalPages - 1 then .page (currentPageIndex + 1)
  else if hasNextChapter then .chapter
  else .noop

/-- `goToPrevPage` (lines 143–149). -/
def goToPrevPage (currentPageIndex : ℕ) (hasPrevChapter : Bool) : NavResult :=
  if 0 < currentPageIndex then .page (currentPageIndex - 1)
  else if hasPrevChapter then .chapter
  else .noop

/-! ## Reading footer (`ReadingFooter.tsx`) -/

/-- `AVERAGE_WPM` (`ReadingFooter.tsx` line 14). -/
def AVERAGE_WPM : ℕ := 238

/-- The remaining-minutes computation of `ReadingFooter`
(`ReadingFooter.tsx` lines 26–29), verbatim:
`wordsPerPage = totalWords / totalPages`,
`remainingPages = totalPages - currentPage`,
`remainingWords = remainingPages * wordsPerPage`,
`remainingMinutes = Math.ceil(remainingWords / AVERAGE_WPM)`.
There is no guard against `totalPages = 0`. -/
def remainingMinutes (totalWords totalPages currentPage : JSNum) : JSNum :=
  let wordsPerPage := JSNum.div totalWords totalPages
  let remainingPages := JSNum.sub totalPages currentPage
  let remainingWords := JSNum.mul remainingPages wordsPerPage
  JSNum.ceil (JSNum.div remainingWords (.num (AVERAGE_WPM : ℚ)))

/-- `formatTime` (`ReadingFooter.tsx` lines 32–39). -/
def formatTime (minutes : JSNum) : String :=
  if JSNum.le minutes (.num 0) then "Almost done"
  else if JSNum.lt minutes (.num 60) then "~" ++ JSNum.toStr minutes ++ " min left"
  else
    let hours := JSNum.floor (JSNum.div minutes (.num 60))
    let mins := JSNum.mod minutes (.num 60)
    if JSNum.seq mins (.num 0) then "~" ++ JSNum.toStr hours ++ "h left"
    else "~" ++ JSNum.toStr hours ++ "h " ++ JSNum.toStr mins ++ "m left"

/-- A stored highlight (`types.ts`, as used by `Reader.tsx` and
`PagedReader.tsx`).  `text` is kept as a character list for the matcher. -/
structure Highlight where
  id : String
  chapterId : String
  text : List Char
  note : String
  color : String
  created : ℕ
deriving DecidableEq, Repr

/-! ## Highlight/Search Matcher (`PagedReader.tsx`, `HighlightText`, lines 160–211)

Text is modelled as `List Char`.  The regular expressions of the source are
all built from escaped literals, so literal (case-insensitive) matching plus
the explicit `[\s\n]+` separator is a complete model of them.  Case
insensitivity is modelled by `Char.toLower` comparison (the texts of every
statement below are ASCII, where this agrees with the regex `i` flag). -/

/-- The character class `\s` of JavaScript regular expressions (also the
class trimmed by `String.prototype.trim`). -/
def isJSWhitespace (c : Char) : Bool :=
  c.val = 9 ∨ c.val = 10 ∨ c.val = 11 ∨ c.val = 12 ∨ c.val = 13 ∨ c.val = 32 ∨
  c.val = 0xa0 ∨ c.val = 0x1680 ∨ (0x2000 ≤ c.val ∧ c.val ≤ 0x200a) ∨
  c.val = 0x2028 ∨ c.val = 0x2029 ∨ c.val = 0x202f ∨ c.val = 0x205f ∨
  c.val = 0x3000 ∨ c.val = 0xfeff

/-- `String.prototype.trim`: drop whitespace from both ends. -/
def trimJS (l : List Char) : List Char :=
  ((l.dropWhile isJSWhitespace).reverse.dropWhile isJSWhitespace).reverse

mutual
/-- `text.replace(/\s+/g, ' ')`: each maximal whitespace run becomes a
single space (`PagedReader.tsx` line 181). -/
def collapseWS : List Char → List Char
  | [] => []
  | c :: rest =>
      if isJSWhitespace c then ' ' :: collapseWSRun rest else c :: collapseWS rest

/-- Inside a whitespace run already replaced by `' '`: skip the remaining
whitespace of the run. -/
def collapseWSRun : List Char → List Char
  | [] => []
  | c :: rest =>
      if isJSWhitespace c then collapseWSRun rest else c :: collapseWS rest
end

/-- `clean.split(' ')` (`PagedReader.tsx` line 182): split on every single
space character. -/
def splitOnSpace : List Char → List (List Char)
  | [] => [[]]
  | c :: rest =>
      match splitOnSpace rest with
      | [] => [[c]]
      | w :: ws => if c = ' ' then [] :: w :: ws else (c :: w) :: ws

/-- Case-insensitive literal match of a pattern at the head of the text;
returns the number of characters consumed (the pattern length).  This models
a regex built purely from escaped literal characters with the `i` flag. -/
def matchCI : List Char → List Char → Option ℕ
  | [], _ => some 0
  | _ :: _, [] => none
  | p :: ps, c :: cs =>
      if p.toLower = c.toLower then (matchCI ps cs).map (· + 1) else none

/-- Length of the maximal leading whitespace run, and the remaining text. -/
def takeWSRun : List Char → ℕ × List Char
  | [] => (0, [])
  | c :: cs =>
      if isJSWhitespace c then
        let r := takeWSRun cs
        (r.1 + 1, r.2)
      else (0, c :: cs)

/-- Match the annotation pattern `escaped.join('[\\s\\n]+')`
(`PagedReader.tsx` line 183) at the head of the text: the first word
literally, then for each following word one-or-more whitespace characters
followed by the word.  Because every word starts with a non-whitespace
character, the greedy `[\s\n]+` consumes exactly the maximal whitespace run,
so this function is an exact model of the regex. -/
def matchWords : List (List Char) → List Char → Option ℕ
  | [], _ => some 0
  | [w], t => matchCI w t
  | w :: w2 :: ws, t =>
      match matchCI w t with
      | none => none
      | some l1 =>
          let r := takeWSRun (t.drop l1)
          if r.1 = 0 then none
          else
            match matchWords (w2 :: ws) r.2 with
            | none => none
            | some l2 => some (l1 + r.1 + l2)

/-- The `while ((match = regex.exec(text)) !== null)` scan: find successive
matches left to right, resuming each search at the end of the previous
match.  `fuel` bounds the recursion; every matcher used below consumes at
least one character per match, so `fuel = text.length` is always enough. -/
def scanAux (m : List Char → Option ℕ) : ℕ → List Char → ℕ → List (ℕ × ℕ)
  | 0, _, _ => []
  | _ + 1, [], _ => []
  | fuel + 1, c :: rest, i =>
      match m (c :: rest) with
      | some l => (i, i + l) :: scanAux m fuel (rest.drop (l - 1)) (i + l)
      | none => scanAux m fuel rest (i + 1)

/-- All matches of `m` in `t`, as half-open index ranges. -/
def scanMatches (m : List Char → Option ℕ) (t : List Char) : List (ℕ × ℕ) :=
  scanAux m t.length t 0

/-- Tag of a match record (`type: 'search' | 'note'`). -/
inductive MatchType where
  | search
  | note
deriving DecidableEq, Repr

/-- A match record (`interface Match` in `HighlightText`, line 167).
`annIdx` is the 1-based display index carried by note matches
(`index: index + 1`, line 186); it is `0` for search matches. -/
structure MatchRec where
  start : ℕ
  stop : ℕ
  mtype : MatchType
  annIdx : ℕ
  priority : ℕ
deriving DecidableEq, Repr

/-- The search matches (`PagedReader.tsx` lines 170–177): when the trimmed
query is non-empty, every case-insensitive literal occurrence of the *raw*
query. -/
def searchMatchList (q t : List Char) : List MatchRec :=
  if trimJS q = [] then []
  else (scanMatches (matchCI q) t).map fun p => ⟨p.1, p.2, .search, 0, 1⟩

/-- The matches of one annotation (`PagedReader.tsx` lines 179–188):
skip whitespace-only annotation text; otherwise collapse whitespace runs,
trim, split into words and match the words separated by one-or-more
whitespace characters. -/
def annMatchList (t : List Char) (idx : ℕ) (h : Highlight) : List MatchRec :=
  if trimJS h.text = [] then []
  else
    let clean := trimJS (collapseWS h.text)
    let words := splitOnSpace clean
    (scanMatches (matchWords words) t).map fun p => ⟨p.1, p.2, .note, idx + 1, 2⟩

/-- All match records in push order: first all search matches, then the
matches of each annotation in list order. -/
def buildMatches (t q : List Char) (anns : List Highlight) : List MatchRec :=
  searchMatchList q t ++
    (anns.enum.flatMap fun p => annMatchList t p.1 p.2)

/-- Stable insertion by start offset: the new element goes before the first
existing element whose start is not smaller. -/
def insertByStart (m : MatchRec) : List MatchRec → List MatchRec
  | [] => [m]
  | x :: xs =>
      if x.start < m.start then x :: insertByStart m xs else m :: x :: xs

/-- `matches.sort((a, b) => a.start - b.start)` (line 190): JavaScript's
sort is stable and ascending by start, which any stable insertion sort by
start reproduces exactly. -/
def sortByStart : List MatchRec → List MatchRec
  | [] => []
  | m :: ms => insertByStart m (sortByStart ms)

/-- The matches kept by the sweep of lines 193–208: maintain `lastIndex`,
skip any match starting before it, keep the rest whole and advance
`lastIndex` to the kept match's end. -/
def sweepKeep : List MatchRec → ℕ → List MatchRec
  | [], _ => []
  | m :: ms, lastIndex =>
      if m.start < lastIndex then sweepKeep ms lastIndex
      else m :: sweepKeep ms m.stop

/-- A rendered segment: literal text, or a tagged match
(`<mark>` for search, the annotation `<span>` for notes). -/
inductive Segment where
  | lit : List Char → Segment
  | mark : MatchType → ℕ → List Char → Segment
deriving DecidableEq, Repr

/-- `text.slice(a, b)` as an index range over a character list. -/
def sliceTx (t : List Char) (a b : ℕ) : List Char :=
  (t.drop a).take (b - a)

/-- The element-building sweep (lines 191–209): for each match in sorted
order, skip it if it starts before `lastIndex`, otherwise emit the literal
gap (if any), emit the tagged match text whole, and advance `lastIndex`;
finally emit the trailing literal. -/
def sweepSegs (t : List Char) : List MatchRec → ℕ → List Segment
  | [], lastIndex =>
      if lastIndex < t.length then [Segment.lit (sliceTx t lastIndex t.length)] else []
  | m :: ms, lastIndex =>
      if m.start < lastIndex then sweepSegs t ms lastIndex
      else
        (if lastIndex < m.start then [Segment.lit (sliceTx t lastIndex m.start)] else []) ++
          Segment.mark m.mtype m.annIdx (sliceTx t m.start m.stop) :: sweepSegs t ms m.stop

/-- `HighlightText` (lines 160–211): the fast path returns the text
unchanged; otherwise build, sort and sweep the matches. -/
def HighlightText (t q : List Char) (anns : List Highlight) : List Segment :=
  if trimJS q = [] ∧ anns = [] then [Segment.lit t]
  else sweepSegs t (sortByStart (buildMatches t q anns)) 0

/-- The text carried by a segment. -/
def segText : Segment → List Char
  | .lit s => s
  | .mark _ _ s => s

/-- The tagged segments of a rendering, in order. -/
def markSegs (segs : List Segment) : List Segment :=
  segs.filter fun s => match s with
    | .mark _ _ _ => true
    | .lit _ => false

/-! ### Concrete matcher inputs used in the statements below -/

/-- The wrapped document text of the spec's matcher example:
`"quick\nbrown"`. -/
def docWrapped : List Char :=
  ['q', 'u', 'i', 'c', 'k', '\n', 'b', 'r', 'o', 'w', 'n']

/-- An annotation whose stored text is `"quick  brown"` (double space). -/
def annDoubleSpace : Highlight :=
  ⟨"a1", "c1", ['q', 'u', 'i', 'c', 'k', ' ', ' ', 'b', 'r', 'o', 'w', 'n'],
    "", "yellow", 0⟩

/-- The same annotation text in upper case, for the case-insensitivity
part. -/
def annUpper : Highlight :=
  ⟨"a2", "c1", ['Q', 'U', 'I', 'C', 'K', ' ', ' ', 'B', 'R', 'O', 'W', 'N'],
    "", "yellow", 0⟩

/-- An annotation whose stored text is only whitespace. -/
def annBlank : Highlight :=
  ⟨"a3", "c1", [' ', '\n', '\t'], "", "yellow", 0⟩

/-- Text for the tie-break witness: `"xy qq"`. -/
def docTie : List Char := ['x', 'y', ' ', 'q', 'q']

/-- Search query for the tie-break witness: `"qq"`. -/
def queryTie : List Char := ['q', 'q']

/-- Annotation for the tie-break witness, with text `"xy"`. -/
def annTie : Highlight := ⟨"a4", "c1", ['x', 'y'], "", "yellow", 0⟩

/-! ## Book store (`useBookStore.ts`, bundled with `Reader.tsx`) -/

/-- A document chapter. -/
structure Chapter where
  id : String
  title : String
  order : ℤ
  content : List Char
deriving DecidableEq, Repr

/-- The single reading-progress record
(`useBookStore.ts`, `saveReadingProgress`). -/
structure ReadingProgress where
  chapterId : String
  pageIndex : ℕ
  lastRead : ℕ
deriving DecidableEq, Repr

/-- A book, with the fields the reader core touches. -/
structure Book where
  title : String
  chapters : List Chapter
  highlights : List Highlight
  notes : String
  readingProgress : Option ReadingProgress
deriving DecidableEq, Repr

/-- The store state relevant to `saveReadingProgress`. -/
structure StoreState where
  book : Option Book
  currentChapterId : String
  currentPageIndex : ℕ
deriving DecidableEq, Repr

/-- A concrete book used as a test input. -/
def sampleBook : Book :=
  ⟨"B", [⟨"ch1", "One", 0, ['h','i']⟩], [], "n", none⟩

/-- A concrete store state used as a test input. -/
def sampleState : StoreState :=
  ⟨some sampleBook, "ch1", 7⟩

/-- `saveReadingProgress` (`useBookStore.ts` lines 391–404 of the bundled
source): derive a fresh progress record from the current store state,
overwrite the book's `readingProgress` field with it, persist and store the
updated book.  Returns the new state together with the book handed to
`saveBook` (`none` when there is no book). -/
def saveReadingProgress (now : ℕ) (s : StoreState) : StoreState × Option Book :=
  match s.book with
  | none => (s, none)
  | some b =>
      let progress : ReadingProgress :=
        ⟨s.currentChapterId, s.currentPageIndex, now⟩
      let updatedBook := { b with readingProgress := some progress }
      ({ s with book := some updatedBook }, some updatedBook)

end ZenReader

/-! ## Helper lemmas -/

namespace ZenReader

/-- The computable `Rat.floor` is the mathematical floor. -/
theorem ratFloor_eq (q : ℚ) : (q.floor : ℤ) = ⌊q⌋ := by
  rw [Rat.floor_def]
  unfold Rat.floor
  split
  · next h => rw [h]; simp
  · rfl

/-- The computable `Rat.ceil` is the mathematical ceiling. -/
theorem ratCeil_eq (q : ℚ) : (q.ceil : ℤ) = ⌈q⌉ := by
  unfold Rat.ceil
  split
  · next h =>
      have hq : (q.num : ℚ) = q := Rat.coe_int_num_of_den_eq_one h
      conv_rhs => rw [← hq]
      rw [Int.ceil_intCast]
  · next h =>
      have hfl : q.num / (q.den : ℤ) = ⌊q⌋ := (Rat.floor_def).symm
      rw [hfl]
      have h1 : ⌈q⌉ ≤ ⌊q⌋ + 1 := Int.ceil_le_floor_add_one q
      have h2 : ⌊q⌋ < ⌈q⌉ := by
        by_contra hc
        push_neg at hc
        have hle : (⌈q⌉ : ℚ) ≤ (⌊q⌋ : ℚ) := by exact_mod_cast hc
        have hfq : (⌊q⌋ : ℚ) ≤ q := Int.floor_le q
        have hqc : q ≤ (⌈q⌉ : ℚ) := Int.le_ceil q
        have heq : q = ((⌊q⌋ : ℤ) : ℚ) := le_antisymm (le_trans hqc hle) hfq
        have : q.den = 1 := by rw [heq]; exact Rat.den_intCast _
        exact h this
      omega

/-- Ceiling through negated floor, to reuse the `norm_num` floor
extension. -/
theorem intCeil_neg_floor (a : ℚ) : ⌈a⌉ = -⌊-a⌋ := by
  rw [Int.floor_neg, neg_neg]

/-- The rational ceiling of a quotient of naturals is the rounded-up
natural division. -/
theorem intCeil_natCast_div (S W : ℕ) (hW : 0 < W) :
    ⌈(S : ℚ) / (W : ℚ)⌉ = ((S + W - 1) / W : ℕ) := by
  have hWQ : (0 : ℚ) < W := by exact_mod_cast hW
  have hdm := Nat.div_add_mod (S + W - 1) W
  have hmod : (S + W - 1) % W < W := Nat.mod_lt _ hW
  set n := (S + W - 1) / W with hn
  have hn1 : S ≤ W * n := by omega
  have hn2 : W * n < S + W := by omega
  rw [Int.ceil_eq_iff]
  constructor
  · rw [lt_div_iff₀ hWQ]
    have h2 : (W : ℚ) * n < S + W := by exact_mod_cast hn2
    push_cast
    nlinarith
  · rw [div_le_iff₀ hWQ]
    have h1 : (S : ℚ) ≤ W * n := by exact_mod_cast hn1
    push_cast
    linarith

/-- The JavaScript page-count expression agrees with its natural-number
form whenever the viewport width is a positive integer. -/
theorem calcPagesValue_eq_nat (S W : ℕ) (hW : 0 < W) :
    calcPagesValue (.num S) (.num W) = .num (calcPagesNat S W) := by
  have hWQ : (W : ℚ) ≠ 0 := by
    exact_mod_cast hW.ne'
  simp only [calcPagesValue, JSNum.div, JSNum.ceil, JSNum.max2, if_neg hWQ]
  rw [ratCeil_eq, intCeil_natCast_div S W hW]
  unfold calcPagesNat
  congr 1
  push_cast
  rfl

/-- Each run of `calculatePages` with an out-of-range captured index emits
exactly one clamping notification. -/
theorem calcPass_countP (ctx : EffectCtx) (prev : ℕ)
    (h : calcPagesNat ctx.scrollWidth ctx.width ≤ ctx.currentPageIndex) :
    (calcPass ctx prev).2.countP isPageChange = 1 := by
  simp only [calcPass, if_pos h]
  split
  · simp [isPageChange]
  · simp [isPageChange]

end ZenReader

/-! ## Claims -/

namespace ZenReader

/-- C2 (code bug): the spec's edge policy says a zero measured viewport
width is treated as "no measurement yet" with no page computation, but the
effect guard only checks that `layoutDims` is non-null — a stored
`{width: 0}` object is truthy, so the computation runs and divides by the
zero width, producing an `Infinity` page count for positive scroll width
and `NaN` for zero scroll width. -/
theorem c2_zeroWidth_still_computes :
    pagesEffectComputes (some (.num 0, .num 600)) = true ∧
    pagesEffectComputes none = false ∧
    calcPagesValue (.num 1000) (.num 0) = .posInf ∧
    calcPagesValue (.num 0) (.num 0) = .nan := by
  decide

/-- C3: for every measured scroll width `S ≥ 0` and viewport width `W > 0`
the computed page count is `max(1, ceil(S / W))` (equivalently the
rounded-up natural division), and an empty chapter (`S = 0`) yields exactly
one page. -/
theorem c3_pageCount_formula (S W : ℕ) (hW : 0 < W) :
    calcPagesValue (.num S) (.num W) =
      .num (((max 1 ⌈(S : ℚ) / (W : ℚ)⌉ : ℤ) : ℚ)) ∧
    calcPagesValue (.num S) (.num W) = .num (calcPagesNat S W) ∧
    (S = 0 → calcPagesValue (.num S) (.num W) = .num 1) := by
  have hWQ : (W : ℚ) ≠ 0 := by exact_mod_cast hW.ne'
  refine ⟨?_, calcPagesValue_eq_nat S W hW, ?_⟩
  · simp only [calcPagesValue, JSNum.div, JSNum.ceil, JSNum.max2, if_neg hWQ]
    rw [ratCeil_eq]
    congr 1
    rw [Int.cast_max]
    norm_num
  · intro hS
    subst hS
    rw [calcPagesValue_eq_nat 0 W hW]
    have : calcPagesNat 0 W = 1 := by
      unfold calcPagesNat
      have : (0 + W - 1) / W = 0 := Nat.div_eq_of_lt (by omega)
      omega
    rw [this]
    norm_num

/-- Witness for C3 at `S = 0`, `W = 2`. -/
theorem c3_pageCount_formula_witness :
    0 < 2 ∧ calcPagesValue (.num 0) (.num 2) = .num (calcPagesNat 0 2) :=
  ⟨by decide, (c3_pageCount_formula 0 2 (by decide)).2.1⟩

end ZenReader

namespace ZenReader

/-- C1 counterexample: with a supplied page index of 5 and content fitting
on a single page, the full schedule of three recomputation passes
(immediate, 100 ms, 500 ms) emits the clamping notification
`onPageChange(0)` three times — once per pass, not exactly once — because
the stale closure still sees index 5 on the later passes. -/
theorem c1_clamp_fires_per_pass :
    (runPasses ⟨5, 100, 100⟩ 1 3).2 =
      [.pageChange 0, .pageChange 0, .pageChange 0] ∧
    (runPasses ⟨5, 100, 100⟩ 1 3).2.countP isPageChange ≠ 1 := by
  decide

/-- C1 (amended): whenever `calculatePages` runs with the captured
`currentPageIndex` at or beyond the new page count, it emits one clamping
notification to `pageCount - 1`; and since the effect's dependency list
omits `currentPageIndex`, a schedule of `n` such passes emits the clamping
notification exactly `n` times (once per pass), not exactly once. -/
theorem c1_clamp_per_recomputation (ctx : EffectCtx) (prev n : ℕ)
    (h : calcPagesNat ctx.scrollWidth ctx.width ≤ ctx.currentPageIndex) :
    (PageEvent.pageChange (calcPagesNat ctx.scrollWidth ctx.width - 1) ∈
        (calcPass ctx prev).2 ∧
      (calcPass ctx prev).2.countP isPageChange = 1) ∧
    (runPasses ctx prev n).2.countP isPageChange = n := by
  constructor
  · constructor
    · simp only [calcPass, if_pos h]
      split
      · simp
      · simp
    · exact calcPass_countP ctx prev h
  · induction n generalizing prev with
    | zero => simp [runPasses]
    | succ k ih =>
        simp only [runPasses, List.countP_append]
        rw [calcPass_countP ctx prev h, ih]
        omega

/-- Witness for C1's amended theorem at the counterexample input. -/
theorem c1_clamp_per_recomputation_witness :
    calcPagesNat 100 100 ≤ 5 ∧
      (runPasses ⟨5, 100, 100⟩ 1 3).2.countP isPageChange = 3 :=
  ⟨by decide, (c1_clamp_per_recomputation ⟨5, 100, 100⟩ 1 3 (by decide)).2⟩

/-- C6: `goToNextPage` increments the index while before the last page,
otherwise falls back to the next-chapter collaborator when present, and
otherwise does nothing; `goToPrevPage` is symmetric. -/
theorem c6_navigation (cur total : ℕ) (hasNext hasPrev : Bool) :
    (cur < total - 1 → goToNextPage cur total hasNext = .page (cur + 1)) ∧
    (¬ cur < total - 1 → hasNext = true → goToNextPage cur total hasNext = .chapter) ∧
    (¬ cur < total - 1 → hasNext = false → goToNextPage cur total hasNext = .noop) ∧
    (0 < cur → goToPrevPage cur hasPrev = .page (cur - 1)) ∧
    (cur = 0 → hasPrev = true → goToPrevPage cur hasPrev = .chapter) ∧
    (cur = 0 → hasPrev = false → goToPrevPage cur hasPrev = .noop) := by
  refine ⟨fun h1 => ?_, fun h1 h2 => ?_, fun h1 h2 => ?_,
    fun h1 => ?_, fun h1 h2 => ?_, fun h1 h2 => ?_⟩
  · simp [goToNextPage, h1]
  · simp [goToNextPage, h1, h2]
  · simp [goToNextPage, h1, h2]
  · simp [goToPrevPage, h1]
  · simp [goToPrevPage, h1, h2]
  · simp [goToPrevPage, h1, h2]

/-- Witness for C6: at the last page of the last chapter with no
collaborators, both intents are no-ops. -/
theorem c6_navigation_witness :
    ¬ 0 < 1 - 1 ∧ goToNextPage 0 1 false = .noop ∧ goToPrevPage 0 false = .noop :=
  ⟨by decide,
    (c6_navigation 0 1 false false).2.2.1 (by decide) rfl,
    (c6_navigation 0 1 false false).2.2.2.2.2 rfl rfl⟩

/-- C7 (code bug): the spec requires the word/page ratios to be guarded
against zero pages and zero words.  Zero words with a positive page count
does end in "Almost done", but there is no guard for `totalPages = 0`: the
division `totalWords / totalPages` produces `NaN` (or `Infinity`), and with
`currentPage = 0` the formatted output is the non-neutral string
`"~NaNh NaNm left"`. -/
theorem c7_zero_guard (p c : ℕ) (hp : 0 < p) :
    formatTime (remainingMinutes (.num 0) (.num p) (.num c)) = "Almost done" ∧
    remainingMinutes (.num 0) (.num 0) (.num 0) = .nan ∧
    formatTime (remainingMinutes (.num 0) (.num 0) (.num 0)) = "~NaNh NaNm left" ∧
    formatTime (remainingMinutes (.num 4760) (.num 0) (.num 0)) = "~NaNh NaNm left" := by
  have hpQ : (p : ℚ) ≠ 0 := by exact_mod_cast hp.ne'
  refine ⟨?_, by decide, by decide, ?_⟩
  · simp only [remainingMinutes, formatTime, JSNum.div, JSNum.sub, JSNum.mul, JSNum.ceil,
      JSNum.le, AVERAGE_WPM, if_neg hpQ]
    norm_num [ratCeil_eq]
  · norm_num [remainingMinutes, formatTime, JSNum.div, JSNum.sub, JSNum.mul, JSNum.ceil,
      JSNum.floor, JSNum.le, JSNum.lt, JSNum.mod, JSNum.seq, JSNum.toStr, AVERAGE_WPM]
    rfl

/-- Witness for C7's theorem at `p = 20`, `c = 10`. -/
theorem c7_zero_guard_witness :
    0 < 20 ∧
      formatTime (remainingMinutes (.num 0) (.num 20) (.num 10)) = "Almost done" :=
  ⟨by decide, (c7_zero_guard 20 10 (by decide)).1⟩

/-- C8: with 4760 words, 20 pages, current page 10 and the fixed speed of
238 words per minute, the remaining words are 10 × 238 = 2380, the
remaining minutes are ⌈2380 / 238⌉ = 10, and the footer renders
"~10 min left". -/
theorem c8_time_estimate :
    JSNum.div (.num 4760) (.num 20) = .num 238 ∧
    JSNum.mul (JSNum.sub (.num 20) (.num 10)) (.num 238) = .num 2380 ∧
    remainingMinutes (.num 4760) (.num 20) (.num 10) = .num 10 ∧
    formatTime (remainingMinutes (.num 4760) (.num 20) (.num 10)) = "~10 min left" := by
  refine ⟨?_, ?_, ?_, ?_⟩
  · norm_num [JSNum.div]
  · norm_num [JSNum.mul, JSNum.sub]
  · norm_num [remainingMinutes, JSNum.div, JSNum.mul, JSNum.sub, JSNum.ceil, AVERAGE_WPM,
      ratCeil_eq, intCeil_neg_floor]
  · norm_num [remainingMinutes, formatTime, JSNum.div, JSNum.mul, JSNum.sub, JSNum.ceil,
      AVERAGE_WPM, ratCeil_eq, intCeil_neg_floor, JSNum.le, JSNum.lt, JSNum.toStr]
    rfl

/-- C10: `saveReadingProgress` overwrites exactly the `readingProgress`
field of the stored book with the single record derived from the current
chapter id, page index and the fresh timestamp, and leaves the title,
chapters, highlights and notes unchanged (the same updated book is handed
to the persistence collaborator). -/
theorem c10_save_progress (now : ℕ) (s : StoreState) (b : Book)
    (h : s.book = some b) :
    ∃ updatedBook,
      (saveReadingProgress now s).2 = some updatedBook ∧
      (saveReadingProgress now s).1.book = some updatedBook ∧
      (saveReadingProgress now s).1.currentChapterId = s.currentChapterId ∧
      (saveReadingProgress now s).1.currentPageIndex = s.currentPageIndex ∧
      updatedBook.readingProgress =
        some ⟨s.currentChapterId, s.currentPageIndex, now⟩ ∧
      updatedBook.title = b.title ∧
      updatedBook.chapters = b.chapters ∧
      updatedBook.highlights = b.highlights ∧
      updatedBook.notes = b.notes := by
  refine ⟨Book.mk b.title b.chapters b.highlights b.notes
    (some ⟨s.currentChapterId, s.currentPageIndex, now⟩), ?_⟩
  simp [saveReadingProgress, h]

/-- Witness for C10 at a concrete store state. -/
theorem c10_save_progress_witness :
    sampleState.book = some sampleBook ∧
    ∃ updatedBook,
      (saveReadingProgress 42 sampleState).2 = some updatedBook ∧
      (saveReadingProgress 42 sampleState).1.book = some updatedBook ∧
      (saveReadingProgress 42 sampleState).1.currentChapterId = sampleState.currentChapterId ∧
      (saveReadingProgress 42 sampleState).1.currentPageIndex = sampleState.currentPageIndex ∧
      updatedBook.readingProgress =
        some ⟨sampleState.currentChapterId, sampleState.currentPageIndex, 42⟩ ∧
      updatedBook.title = sampleBook.title ∧
      updatedBook.chapters = sampleBook.chapters ∧
      updatedBook.highlights = sampleBook.highlights ∧
      updatedBook.notes = sampleBook.notes := by
  exact ⟨rfl, c10_save_progress 42 sampleState sampleBook rfl⟩

end ZenReader

/-! ## Matcher lemmas -/

namespace ZenReader

/-- A successful literal match consumes exactly the pattern length, which
fits in the text. -/
theorem matchCI_some :
    ∀ (p t : List Char) (l : ℕ), matchCI p t = some l →
      l = p.length ∧ p.length ≤ t.length := by
  intro p
  induction p with
  | nil =>
      intro t l h
      simp only [matchCI, Option.some.injEq] at h
      simp [← h]
  | cons a ps ih =>
      intro t l h
      cases t with
      | nil => simp [matchCI] at h
      | cons c cs =>
          simp only [matchCI] at h
          by_cases hc : a.toLower = c.toLower
          · rw [if_pos hc] at h
            cases ho : matchCI ps cs with
            | none => rw [ho] at h; simp at h
            | some l0 =>
                rw [ho] at h
                simp only [Option.map_some', Option.some.injEq] at h
                obtain ⟨h1, h2⟩ := ih cs l0 ho
                subst h
                simp [h1]
                omega
          · rw [if_neg hc] at h
            cases h

/-- `takeWSRun` splits the length of its input. -/
theorem takeWSRun_length (l : List Char) :
    (takeWSRun l).1 + (takeWSRun l).2.length = l.length := by
  induction l with
  | nil => simp [takeWSRun]
  | cons c cs ih =>
      simp only [takeWSRun]
      by_cases hc : isJSWhitespace c
      · simp only [if_pos hc]
        simp only [List.length_cons]
        omega
      · simp [if_neg hc]

/-- A successful word-pattern match fits in the text. -/
theorem matchWords_le :
    ∀ (ws : List (List Char)) (t : List Char) (l : ℕ),
      matchWords ws t = some l → l ≤ t.length := by
  intro ws
  induction ws with
  | nil =>
      intro t l h
      simp only [matchWords, Option.some.injEq] at h
      omega
  | cons w ws ih =>
      intro t l h
      cases ws with
      | nil =>
          simp only [matchWords] at h
          exact (matchCI_some w t l h).1 ▸ (matchCI_some w t l h).2
      | cons w2 ws' =>
          simp only [matchWords] at h
          cases hm : matchCI w t with
          | none => rw [hm] at h; cases h
          | some l1 =>
              simp only [hm] at h
              by_cases hn : (takeWSRun (t.drop l1)).1 = 0
              · rw [if_pos hn] at h; cases h
              · rw [if_neg hn] at h
                cases hm2 : matchWords (w2 :: ws') (takeWSRun (t.drop l1)).2 with
                | none => rw [hm2] at h; cases h
                | some l2 =>
                    rw [hm2] at h
                    simp only [Option.some.injEq] at h
                    subst h
                    obtain ⟨he, hle⟩ := matchCI_some w t l1 hm
                    have h2 := ih (takeWSRun (t.drop l1)).2 l2 hm2
                    have h3 := takeWSRun_length (t.drop l1)
                    have h4 : (t.drop l1).length = t.length - l1 := List.length_drop l1 t
                    omega

/-- A successful word-pattern match with a non-empty first word consumes at
least one character. -/
theorem matchWords_pos :
    ∀ (w : List Char) (ws : List (List Char)) (t : List Char) (l : ℕ),
      matchWords (w :: ws) t = some l → w ≠ [] → 1 ≤ l := by
  intro w ws t l h hw
  cases ws with
  | nil =>
      simp only [matchWords] at h
      obtain ⟨he, _⟩ := matchCI_some w t l h
      subst he
      cases w with
      | nil => exact absurd rfl hw
      | cons a as => simp
  | cons w2 ws' =>
      simp only [matchWords] at h
      cases hm : matchCI w t with
      | none => rw [hm] at h; cases h
      | some l1 =>
          simp only [hm] at h
          by_cases hn : (takeWSRun (t.drop l1)).1 = 0
          · rw [if_pos hn] at h; cases h
          · rw [if_neg hn] at h
            cases hm2 : matchWords (w2 :: ws') (takeWSRun (t.drop l1)).2 with
            | none => rw [hm2] at h; cases h
            | some l2 =>
                rw [hm2] at h
                simp only [Option.some.injEq] at h
                omega

/-- Bounds of the scanner's matches. -/
theorem scanAux_bounds (m : List Char → Option ℕ)
    (Hle : ∀ t l, m t = some l → l ≤ t.length) :
    ∀ (fuel : ℕ) (t : List Char) (i : ℕ) (se : ℕ × ℕ),
      se ∈ scanAux m fuel t i → i ≤ se.1 ∧ se.1 ≤ se.2 ∧ se.2 ≤ i + t.length := by
  intro fuel
  induction fuel with
  | zero => intro t i se h; simp [scanAux] at h
  | succ f ih =>
      intro t i se h
      cases t with
      | nil => simp [scanAux] at h
      | cons c rest =>
          simp only [scanAux] at h
          cases hm : m (c :: rest) with
          | none =>
              rw [hm] at h
              have := ih rest (i + 1) se h
              simp only [List.length_cons]
              omega
          | some l =>
              rw [hm] at h
              have hl := Hle (c :: rest) l hm
              simp only [List.length_cons] at hl
              cases h with
              | head =>
                  simp only [List.length_cons]
                  omega
              | tail _ h2 =>
                  have := ih (rest.drop (l - 1)) (i + l) se h2
                  have hd : (rest.drop (l - 1)).length = rest.length - (l - 1) :=
                    List.length_drop _ _
                  simp only [List.length_cons]
                  omega

/-- Positivity of the scanner's matches. -/
theorem scanAux_pos (m : List Char → Option ℕ)
    (Hpos : ∀ t l, m t = some l → 1 ≤ l) :
    ∀ (fuel : ℕ) (t : List Char) (i : ℕ) (se : ℕ × ℕ),
      se ∈ scanAux m fuel t i → se.1 < se.2 := by
  intro fuel
  induction fuel with
  | zero => intro t i se h; simp [scanAux] at h
  | succ f ih =>
      intro t i se h
      cases t with
      | nil => simp [scanAux] at h
      | cons c rest =>
          simp only [scanAux] at h
          cases hm : m (c :: rest) with
          | none =>
              rw [hm] at h
              exact ih rest (i + 1) se h
          | some l =>
              rw [hm] at h
              have hl := Hpos (c :: rest) l hm
              cases h with
              | head => simp; omega
              | tail _ h2 => exact ih (rest.drop (l - 1)) (i + l) se h2

end ZenReader

namespace ZenReader

/-- The head that survives `dropWhile` fails the predicate. -/
theorem head_dropWhile_false (p : Char → Bool) :
    ∀ (l : List Char) (c : Char) (rest : List Char),
      l.dropWhile p = c :: rest → p c = false := by
  intro l
  induction l with
  | nil => intro c rest h; simp [List.dropWhile] at h
  | cons a as ih =>
      intro c rest h
      by_cases ha : p a
      · rw [List.dropWhile_cons_of_pos ha] at h
        exact ih c rest h
      · rw [List.dropWhile_cons_of_neg ha] at h
        cases h
        simpa using ha

/-- `trimJS l` is a prefix of the left-trimmed list. -/
theorem trimJS_pre (l : List Char) :
    ∃ suf, trimJS l ++ suf = l.dropWhile isJSWhitespace := by
  refine ⟨(((l.dropWhile isJSWhitespace).reverse.takeWhile isJSWhitespace)).reverse, ?_⟩
  unfold trimJS
  have h := List.takeWhile_append_dropWhile
    (p := isJSWhitespace) (l := (l.dropWhile isJSWhitespace).reverse)
  calc ((l.dropWhile isJSWhitespace).reverse.dropWhile isJSWhitespace).reverse ++
        ((l.dropWhile isJSWhitespace).reverse.takeWhile isJSWhitespace).reverse
      = (((l.dropWhile isJSWhitespace).reverse.takeWhile isJSWhitespace) ++
          ((l.dropWhile isJSWhitespace).reverse.dropWhile isJSWhitespace)).reverse := by
        rw [List.reverse_append]
    _ = l.dropWhile isJSWhitespace := by rw [h, List.reverse_reverse]

/-- The first character of a non-empty trimmed string is not whitespace. -/
theorem trimJS_head (l : List Char) (c : Char) (rest : List Char)
    (h : trimJS l = c :: rest) : isJSWhitespace c = false := by
  obtain ⟨suf, hsuf⟩ := trimJS_pre l
  rw [h] at hsuf
  exact head_dropWhile_false isJSWhitespace l c (rest ++ suf) (by simpa using hsuf.symm)

/-- A member failing the predicate survives `dropWhile`. -/
theorem mem_dropWhile_of_neg (p : Char → Bool) (l : List Char) (c : Char)
    (hc : c ∈ l) (hp : p c = false) : c ∈ l.dropWhile p := by
  have hsplit := List.takeWhile_append_dropWhile (p := p) (l := l)
  rw [← hsplit] at hc
  rcases List.mem_append.mp hc with h1 | h2
  · have := List.mem_takeWhile_imp h1
    rw [hp] at this
    cases this
  · exact h2

/-- The trim of a list of pure whitespace is empty. -/
theorem trimJS_eq_nil (l : List Char)
    (h : ∀ c ∈ l, isJSWhitespace c = true) : trimJS l = [] := by
  have h1 : l.dropWhile isJSWhitespace = [] :=
    List.dropWhile_eq_nil_iff.mpr h
  unfold trimJS
  rw [h1]
  simp

/-- A list containing a non-whitespace character has a non-empty trim. -/
theorem trimJS_ne_nil (l : List Char) (c : Char) (hc : c ∈ l)
    (hp : isJSWhitespace c = false) : trimJS l ≠ [] := by
  intro hnil
  have h1 : c ∈ l.dropWhile isJSWhitespace := mem_dropWhile_of_neg _ _ _ hc hp
  unfold trimJS at hnil
  have h2 : (l.dropWhile isJSWhitespace).reverse.dropWhile isJSWhitespace = [] := by
    have := congrArg List.reverse hnil
    simpa using this
  have h3 := List.dropWhile_eq_nil_iff.mp h2
  have h4 : c ∈ (l.dropWhile isJSWhitespace).reverse := by simpa using h1
  have := h3 c h4
  rw [hp] at this
  cases this

/-- A non-empty trim exhibits a non-whitespace member. -/
theorem exists_nonWS_of_trimJS_ne_nil (l : List Char) (h : trimJS l ≠ []) :
    ∃ c ∈ l, isJSWhitespace c = false := by
  by_contra hc
  push_neg at hc
  refine h (trimJS_eq_nil l fun c hmem => ?_)
  have := hc c hmem
  cases hb : isJSWhitespace c with
  | false => exact absurd hb this
  | true => rfl

/-- Whitespace collapsing preserves non-whitespace characters. -/
theorem mem_collapseWS (l : List Char) (c : Char)
    (hp : isJSWhitespace c = false) (hc : c ∈ l) :
    c ∈ collapseWS l ∧ c ∈ collapseWSRun l := by
  induction l with
  | nil => cases hc
  | cons a as ih =>
      rcases List.mem_cons.mp hc with rfl | hmem
      · constructor
        · rw [collapseWS, if_neg (by simp [hp])]
          exact List.mem_cons_self _ _
        · rw [collapseWSRun, if_neg (by simp [hp])]
          exact List.mem_cons_self _ _
      · obtain ⟨ih1, ih2⟩ := ih hmem
        constructor
        · rw [collapseWS]
          by_cases ha : isJSWhitespace a
          · rw [if_pos ha]
            exact List.mem_cons_of_mem _ ih2
          · rw [if_neg ha]
            exact List.mem_cons_of_mem _ ih1
        · rw [collapseWSRun]
          by_cases ha : isJSWhitespace a
          · rw [if_pos ha]
            exact ih2
          · rw [if_neg ha]
            exact List.mem_cons_of_mem _ ih1

/-- Splitting a list that starts with a non-space keeps that character at
the head of the first word. -/
theorem splitOnSpace_cons_ne (c : Char) (rest : List Char) (hc : ¬ c = ' ') :
    ∃ w ws, splitOnSpace (c :: rest) = (c :: w) :: ws := by
  rw [splitOnSpace]
  cases hs : splitOnSpace rest with
  | nil => exact ⟨[], [], rfl⟩
  | cons w ws => exact ⟨w, ws, by simp [hc]⟩

/-- For an annotation that is not pure whitespace, the first word of the
normalized text is non-empty. -/
theorem annWords_first (txt : List Char) (hne : trimJS txt ≠ []) :
    ∃ w ws, splitOnSpace (trimJS (collapseWS txt)) = w :: ws ∧ w ≠ [] := by
  obtain ⟨c, hmem, hp⟩ := exists_nonWS_of_trimJS_ne_nil txt hne
  have hcol : c ∈ collapseWS txt := (mem_collapseWS txt c hp hmem).1
  have htrim : trimJS (collapseWS txt) ≠ [] := trimJS_ne_nil _ c hcol hp
  cases hcl : trimJS (collapseWS txt) with
  | nil => exact absurd hcl htrim
  | cons c0 rest =>
      have hc0 : isJSWhitespace c0 = false := trimJS_head _ _ _ hcl
      have hc0s : ¬ c0 = ' ' := by
        intro hsp
        subst hsp
        simp [isJSWhitespace] at hc0
      obtain ⟨w, ws, hw⟩ := splitOnSpace_cons_ne c0 rest hc0s
      exact ⟨c0 :: w, ws, hw, by simp⟩

end ZenReader

namespace ZenReader

/-- Search matches are search-tagged, in bounds and non-empty. -/
theorem searchMatchList_mem (q t : List Char) (x : MatchRec)
    (hx : x ∈ searchMatchList q t) :
    x.mtype = .search ∧ x.start < x.stop ∧ x.stop ≤ t.length := by
  unfold searchMatchList at hx
  by_cases hq : trimJS q = []
  · rw [if_pos hq] at hx; cases hx
  · rw [if_neg hq] at hx
    obtain ⟨se, hse, rfl⟩ := List.mem_map.mp hx
    have hqne : q ≠ [] := by
      intro hq0
      subst hq0
      exact hq rfl
    have Hle : ∀ t' l, matchCI q t' = some l → l ≤ t'.length := by
      intro t' l hm
      obtain ⟨h1, h2⟩ := matchCI_some q t' l hm
      omega
    have Hpos : ∀ t' l, matchCI q t' = some l → 1 ≤ l := by
      intro t' l hm
      obtain ⟨h1, _⟩ := matchCI_some q t' l hm
      subst h1
      cases q with
      | nil => exact absurd rfl hqne
      | cons a as => simp
    have hb := scanAux_bounds (matchCI q) Hle t.length t 0 se hse
    have hp := scanAux_pos (matchCI q) Hpos t.length t 0 se hse
    refine ⟨rfl, hp, ?_⟩
    show se.2 ≤ t.length
    omega

/-- Annotation matches are note-tagged, in bounds and non-empty. -/
theorem annMatchList_mem (t : List Char) (idx : ℕ) (h : Highlight) (x : MatchRec)
    (hx : x ∈ annMatchList t idx h) :
    x.mtype = .note ∧ x.start < x.stop ∧ x.stop ≤ t.length := by
  unfold annMatchList at hx
  by_cases hh : trimJS h.text = []
  · rw [if_pos hh] at hx; cases hx
  · rw [if_neg hh] at hx
    obtain ⟨se, hse, rfl⟩ := List.mem_map.mp hx
    obtain ⟨w, ws, hws, hw⟩ := annWords_first h.text hh
    have Hle : ∀ t' l, matchWords (splitOnSpace (trimJS (collapseWS h.text))) t' = some l →
        l ≤ t'.length := fun t' l hm => matchWords_le _ t' l hm
    have Hpos : ∀ t' l, matchWords (splitOnSpace (trimJS (collapseWS h.text))) t' = some l →
        1 ≤ l := by
      intro t' l hm
      rw [hws] at hm
      exact matchWords_pos w ws t' l hm hw
    have hb := scanAux_bounds _ Hle t.length t 0 se hse
    have hp := scanAux_pos _ Hpos t.length t 0 se hse
    refine ⟨rfl, hp, ?_⟩
    show se.2 ≤ t.length
    omega

/-- Every built match is non-empty and in bounds. -/
theorem buildMatches_mem (t q : List Char) (anns : List Highlight) (x : MatchRec)
    (hx : x ∈ buildMatches t q anns) :
    x.start < x.stop ∧ x.stop ≤ t.length := by
  unfold buildMatches at hx
  rcases List.mem_append.mp hx with h1 | h2
  · obtain ⟨_, h⟩ := searchMatchList_mem q t x h1
    exact h
  · obtain ⟨p, _, hp⟩ := List.mem_flatMap.mp h2
    obtain ⟨_, h⟩ := annMatchList_mem t p.1 p.2 x hp
    exact h

/-- A search-tagged built match comes from the search list. -/
theorem buildMatches_search_mem (t q : List Char) (anns : List Highlight)
    (x : MatchRec) (hx : x ∈ buildMatches t q anns) (hty : x.mtype = .search) :
    x ∈ searchMatchList q t := by
  unfold buildMatches at hx
  rcases List.mem_append.mp hx with h1 | h2
  · exact h1
  · obtain ⟨p, _, hp⟩ := List.mem_flatMap.mp h2
    obtain ⟨hn, _⟩ := annMatchList_mem t p.1 p.2 x hp
    rw [hty] at hn
    cases hn

end ZenReader

namespace ZenReader

/-- Membership in a stable insertion. -/
theorem mem_insertByStart (m x : MatchRec) (l : List MatchRec) :
    x ∈ insertByStart m l ↔ x = m ∨ x ∈ l := by
  induction l with
  | nil => simp [insertByStart]
  | cons a as ih =>
      rw [insertByStart]
      by_cases ha : a.start < m.start
      · rw [if_pos ha]
        simp only [List.mem_cons, ih]
        tauto
      · rw [if_neg ha]
        simp

/-- Sorting preserves membership. -/
theorem mem_sortByStart (x : MatchRec) (l : List MatchRec) :
    x ∈ sortByStart l ↔ x ∈ l := by
  induction l with
  | nil => simp [sortByStart]
  | cons a as ih =>
      rw [sortByStart, mem_insertByStart]
      simp only [List.mem_cons, ih]

/-- Stability of the insertion, phrased through filters: the per-start
slices of the sorted list are the per-start slices of the input. -/
theorem filter_insertByStart (v : ℕ) (m : MatchRec) (l : List MatchRec) :
    (insertByStart m l).filter (fun x => x.start == v) =
      if m.start = v then m :: l.filter (fun x => x.start == v)
      else l.filter (fun x => x.start == v) := by
  induction l with
  | nil =>
      by_cases hm : m.start = v
      · simp [insertByStart, List.filter_cons, hm]
      · simp [insertByStart, List.filter_cons, hm]
  | cons a as ih =>
      rw [insertByStart]
      by_cases ha : a.start < m.start
      · rw [if_pos ha]
        by_cases hm : m.start = v
        · have hav : a.start ≠ v := by omega
          simp [List.filter_cons, hav, ih, hm]
        · simp [List.filter_cons, ih, hm]
      · rw [if_neg ha]
        by_cases hm : m.start = v
        · rw [if_pos hm, List.filter_cons, if_pos (by simp [hm])]
        · rw [if_neg hm, List.filter_cons, if_neg (by simp [hm])]

/-- Stability of the sort, phrased through filters. -/
theorem filter_sortByStart (v : ℕ) (l : List MatchRec) :
    (sortByStart l).filter (fun x => x.start == v) =
      l.filter (fun x => x.start == v) := by
  induction l with
  | nil => simp [sortByStart]
  | cons a as ih =>
      rw [sortByStart, filter_insertByStart]
      by_cases hm : a.start = v
      · rw [if_pos hm, ih, List.filter_cons, if_pos (by simp [hm])]
      · rw [if_neg hm, ih, List.filter_cons, if_neg (by simp [hm])]

/-- The sweep keeps a sublist of its input: kept matches are input matches,
whole and in order. -/
theorem sweepKeep_sublist (ms : List MatchRec) (li : ℕ) :
    (sweepKeep ms li).Sublist ms := by
  induction ms generalizing li with
  | nil => simp [sweepKeep]
  | cons m ms ih =>
      rw [sweepKeep]
      by_cases hm : m.start < li
      · rw [if_pos hm]
        exact (ih li).cons m
      · rw [if_neg hm]
        exact (ih m.stop).cons₂ m

/-- Every kept match starts at or after the running `lastIndex`. -/
theorem sweepKeep_ge (ms : List MatchRec) (li : ℕ)
    (Hb : ∀ x ∈ ms, x.start ≤ x.stop) :
    ∀ k ∈ sweepKeep ms li, li ≤ k.start := by
  induction ms generalizing li with
  | nil => intro k hk; simp [sweepKeep] at hk
  | cons m ms ih =>
      intro k hk
      rw [sweepKeep] at hk
      by_cases hm : m.start < li
      · rw [if_pos hm] at hk
        exact ih li (fun x hx => Hb x (List.mem_cons_of_mem _ hx)) k hk
      · rw [if_neg hm] at hk
        rcases List.mem_cons.mp hk with rfl | htail
        · omega
        · have h1 := ih m.stop (fun x hx => Hb x (List.mem_cons_of_mem _ hx)) k htail
          have h2 := Hb m (List.mem_cons_self _ _)
          omega

/-- Kept matches never overlap: each one ends before the next begins. -/
theorem sweepKeep_chain (ms : List MatchRec) (li : ℕ)
    (Hb : ∀ x ∈ ms, x.start ≤ x.stop) :
    (sweepKeep ms li).Chain' (fun a b => a.stop ≤ b.start) := by
  induction ms generalizing li with
  | nil => simp [sweepKeep]
  | cons m ms ih =>
      rw [sweepKeep]
      by_cases hm : m.start < li
      · rw [if_pos hm]
        exact ih li (fun x hx => Hb x (List.mem_cons_of_mem _ hx))
      · rw [if_neg hm]
        rw [List.chain'_cons']
        constructor
        · intro y hy
          exact sweepKeep_ge ms m.stop
            (fun x hx => Hb x (List.mem_cons_of_mem _ hx)) y
            (List.mem_of_mem_head? hy)
        · exact ih m.stop (fun x hx => Hb x (List.mem_cons_of_mem _ hx))

/-- Each kept match is the first entry of the input with its start offset:
the earlier-sorted entry wins ties. -/
theorem sweepKeep_headFilter (ms : List MatchRec) (li : ℕ)
    (Hpos : ∀ x ∈ ms, x.start < x.stop) :
    ∀ k ∈ sweepKeep ms li,
      (ms.filter (fun x => x.start == k.start)).head? = some k := by
  induction ms generalizing li with
  | nil => intro k hk; simp [sweepKeep] at hk
  | cons m ms ih =>
      intro k hk
      have Hb : ∀ x ∈ ms, x.start ≤ x.stop :=
        fun x hx => le_of_lt (Hpos x (List.mem_cons_of_mem _ hx))
      rw [sweepKeep] at hk
      by_cases hm : m.start < li
      · rw [if_pos hm] at hk
        have hge := sweepKeep_ge ms li Hb k hk
        have hne : ¬ m.start = k.start := by omega
        rw [List.filter_cons, if_neg (by simp [hne])]
        exact ih li (fun x hx => Hpos x (List.mem_cons_of_mem _ hx)) k hk
      · rw [if_neg hm] at hk
        rcases List.mem_cons.mp hk with rfl | htail
        · rw [List.filter_cons, if_pos (by simp)]
          rfl
        · have hge := sweepKeep_ge ms m.stop Hb k htail
          have hmp := Hpos m (List.mem_cons_self _ _)
          have hne : ¬ m.start = k.start := by omega
          rw [List.filter_cons, if_neg (by simp [hne])]
          exact ih m.stop (fun x hx => Hpos x (List.mem_cons_of_mem _ hx)) k htail

/-- The tagged segments of the element sweep are exactly the kept matches,
rendered whole. -/
theorem markSegs_sweepSegs (t : List Char) (ms : List MatchRec) (li : ℕ) :
    markSegs (sweepSegs t ms li) =
      (sweepKeep ms li).map
        (fun m => Segment.mark m.mtype m.annIdx (sliceTx t m.start m.stop)) := by
  induction ms generalizing li with
  | nil =>
      rw [sweepSegs, sweepKeep]
      by_cases hl : li < t.length
      · rw [if_pos hl]; simp [markSegs]
      · rw [if_neg hl]; simp [markSegs]
  | cons m ms ih =>
      rw [sweepSegs, sweepKeep]
      by_cases hm : m.start < li
      · rw [if_pos hm, if_pos hm]
        exact ih li
      · rw [if_neg hm, if_neg hm]
        unfold markSegs
        rw [List.filter_append]
        by_cases hg : li < m.start
        · rw [if_pos hg]
          simp only [List.filter, List.map]
          rw [← markSegs, ih]
          simp
        · rw [if_neg hg]
          simp only [List.filter, List.map, List.nil_append]
          rw [← markSegs, ih]

end ZenReader

namespace ZenReader

/-- Adjacent slices concatenate. -/
theorem sliceTx_append (t : List Char) (a b c : ℕ) (h1 : a ≤ b) (h2 : b ≤ c) :
    sliceTx t a b ++ sliceTx t b c = sliceTx t a c := by
  unfold sliceTx
  have hd : t.drop b = (t.drop a).drop (b - a) := by
    rw [List.drop_drop]
    congr 1
    omega
  rw [hd, ← List.take_add]
  congr 1
  omega

/-- A slice starting at or beyond the end is empty. -/
theorem sliceTx_of_ge (t : List Char) (a : ℕ) (h : t.length ≤ a) :
    sliceTx t a t.length = [] := by
  unfold sliceTx
  have : t.length - a = 0 := by omega
  rw [this]
  simp

/-- The element sweep emits every character of the suffix it covers exactly
once: its segments concatenate to `t[li ..]`. -/
theorem sweepSegs_flat (t : List Char) :
    ∀ (ms : List MatchRec) (li : ℕ),
      (∀ x ∈ ms, x.start ≤ x.stop ∧ x.stop ≤ t.length) → li ≤ t.length →
      (sweepSegs t ms li).flatMap segText = sliceTx t li t.length := by
  intro ms
  induction ms with
  | nil =>
      intro li hb hli
      rw [sweepSegs]
      by_cases hl : li < t.length
      · rw [if_pos hl]
        simp [segText]
      · rw [if_neg hl]
        rw [sliceTx_of_ge t li (by omega)]
        simp
  | cons m ms ih =>
      intro li hb hli
      rw [sweepSegs]
      by_cases hm : m.start < li
      · rw [if_pos hm]
        exact ih li (fun x hx => hb x (List.mem_cons_of_mem _ hx)) hli
      · rw [if_neg hm]
        obtain ⟨hms, hmt⟩ := hb m (List.mem_cons_self _ _)
        have hrest := ih m.stop (fun x hx => hb x (List.mem_cons_of_mem _ hx)) hmt
        by_cases hg : li < m.start
        · rw [if_pos hg]
          rw [List.flatMap_append, List.flatMap_cons]
          simp only [List.flatMap_cons, List.flatMap_nil, List.append_nil, segText]
          rw [hrest,
            sliceTx_append t m.start m.stop t.length hms hmt,
            sliceTx_append t li m.start t.length (le_of_lt hg) (le_trans hms hmt)]
        · rw [if_neg hg]
          have hlm : li = m.start := by omega
          subst hlm
          rw [List.nil_append, List.flatMap_cons]
          simp only [segText]
          rw [hrest, sliceTx_append t m.start m.stop t.length hms hmt]

end ZenReader

namespace ZenReader

/-- C9: the Matcher's output partitions the input exactly: concatenating
the emitted segments (literal gaps, tagged matches, trailing literal)
reproduces the input text with no character dropped or duplicated. -/
theorem c9_segments_concat (t q : List Char) (anns : List Highlight) :
    (HighlightText t q anns).flatMap segText = t := by
  unfold HighlightText
  split
  · simp [segText]
  · have hb : ∀ x ∈ sortByStart (buildMatches t q anns),
        x.start ≤ x.stop ∧ x.stop ≤ t.length := by
      intro x hx
      obtain ⟨h1, h2⟩ := buildMatches_mem t q anns x ((mem_sortByStart x _).mp hx)
      exact ⟨le_of_lt h1, h2⟩
    rw [sweepSegs_flat t _ 0 hb (Nat.zero_le _)]
    unfold sliceTx
    simp

/-- C4: the sweep over the start-sorted match list keeps a sublist of the
matches (each kept whole — the tagged segments are exactly the kept
matches' full slices, never truncated or nested), kept matches never
overlap, each kept match is the first entry of the sorted list with its
start offset (the earlier-sorted entry wins ties), and in particular an
annotation match sharing its start offset with any search match is dropped
entirely (search is enumerated first and wins the tie). -/
theorem c4_sweep_drop_tiebreak (t q : List Char) (anns : List Highlight) :
    (sweepKeep (sortByStart (buildMatches t q anns)) 0).Sublist
        (sortByStart (buildMatches t q anns)) ∧
    (sweepKeep (sortByStart (buildMatches t q anns)) 0).Chain'
        (fun a b => a.stop ≤ b.start) ∧
    markSegs (sweepSegs t (sortByStart (buildMatches t q anns)) 0) =
      (sweepKeep (sortByStart (buildMatches t q anns)) 0).map
        (fun m => Segment.mark m.mtype m.annIdx (sliceTx t m.start m.stop)) ∧
    (∀ k ∈ sweepKeep (sortByStart (buildMatches t q anns)) 0,
      ((sortByStart (buildMatches t q anns)).filter
          (fun x => x.start == k.start)).head? = some k) ∧
    (∀ a ∈ sweepKeep (sortByStart (buildMatches t q anns)) 0, a.mtype = .note →
      ∀ s ∈ buildMatches t q anns, s.mtype = .search → s.start ≠ a.start) := by
  have hpos : ∀ x ∈ sortByStart (buildMatches t q anns), x.start < x.stop :=
    fun x hx => (buildMatches_mem t q anns x ((mem_sortByStart x _).mp hx)).1
  have hble : ∀ x ∈ sortByStart (buildMatches t q anns), x.start ≤ x.stop :=
    fun x hx => le_of_lt (hpos x hx)
  refine ⟨sweepKeep_sublist _ 0, sweepKeep_chain _ 0 hble,
    markSegs_sweepSegs t _ 0, sweepKeep_headFilter _ 0 hpos, ?_⟩
  intro a ha hty s hs hsty heq
  have hhead := sweepKeep_headFilter _ 0 hpos a ha
  rw [filter_sortByStart] at hhead
  have hsearch : s ∈ searchMatchList q t := buildMatches_search_mem t q anns s hs hsty
  have hsf : s ∈ (searchMatchList q t).filter (fun x => x.start == a.start) :=
    List.mem_filter.mpr ⟨hsearch, by simp [heq]⟩
  rw [show buildMatches t q anns =
        searchMatchList q t ++ (anns.enum.flatMap fun p => annMatchList t p.1 p.2)
      from rfl,
    List.filter_append] at hhead
  cases hcase : (searchMatchList q t).filter (fun x => x.start == a.start) with
  | nil => rw [hcase] at hsf; cases hsf
  | cons y ys =>
      rw [hcase] at hhead
      simp only [List.cons_append, List.head?_cons, Option.some.injEq] at hhead
      have hy : y ∈ searchMatchList q t :=
        (List.mem_filter.mp (hcase ▸ List.mem_cons_self y ys)).1
      obtain ⟨hyty, _⟩ := searchMatchList_mem q t y hy
      rw [hhead, hty] at hyty
      cases hyty

/-- Witness for C4: on text `"xy qq"` with query `"qq"` and annotation
`"xy"`, the kept annotation match `[0,2)` and the search match `[3,5)`
have (as the theorem forces) different start offsets. -/
theorem c4_sweep_drop_tiebreak_witness :
    (⟨0, 2, .note, 1, 2⟩ : MatchRec) ∈
        sweepKeep (sortByStart (buildMatches docTie queryTie [annTie])) 0 ∧
    (⟨3, 5, .search, 0, 1⟩ : MatchRec) ∈ buildMatches docTie queryTie [annTie] ∧
    (3 : ℕ) ≠ 0 :=
  ⟨by decide, by decide,
    (c4_sweep_drop_tiebreak docTie queryTie [annTie]).2.2.2.2
      ⟨0, 2, .note, 1, 2⟩ (by decide) rfl
      ⟨3, 5, .search, 0, 1⟩ (by decide) rfl⟩

/-- C5: the annotation `"quick  brown"` (double space, and its upper-case
variant) matches the wrapped document text `"quick\nbrown"` as a single
annotation span covering the whole text — the normalized single space
matches the newline — and an annotation whose stored text is only
whitespace produces no match at all. -/
theorem c5_ann_wrap_matching :
    buildMatches docWrapped [] [annDoubleSpace] =
      [⟨0, 11, .note, 1, 2⟩] ∧
    HighlightText docWrapped [] [annDoubleSpace] =
      [Segment.mark .note 1 docWrapped] ∧
    buildMatches docWrapped [] [annUpper] = [⟨0, 11, .note, 1, 2⟩] ∧
    (∀ h : Highlight, trimJS h.text = [] →
      ∀ (t : List Char) (idx : ℕ), annMatchList t idx h = []) ∧
    trimJS annBlank.text = [] := by
  refine ⟨by decide, by decide, by decide, ?_, by decide⟩
  intro h hh t idx
  unfold annMatchList
  rw [if_pos hh]

/-- Witness for C5: the whitespace-only annotation yields no match on the
example text. -/
theorem c5_ann_wrap_matching_witness :
    trimJS annBlank.text = [] ∧ annMatchList docWrapped 0 annBlank = [] :=
  ⟨by decide,
    c5_ann_wrap_matching.2.2.2.1 annBlank (by decide) docWrapped 0⟩

end ZenReader
